import Mathlib

/-!
# Verification of `pycbc/waveform/utils.py`

A shallow embedding of the waveform utility module: the phase-unwrapping
scan `unwrap_phase`, and its two callers `phase_from_polarizations` and
`amplitude_from_polarizations`.  Sample sequences are modelled as `List`s
over a linear ordered field (instantiated at `ℚ` for executable checks and
at `ℝ` for the callers, which involve `arctan`, `π` and square roots).
-/

namespace PyCBC

/-- The accumulator update performed by one loop iteration of
`unwrap_phase`: given the previous raw value `pval` (or `none` on the
first iteration), the current raw value `val`, and the running
`total_offset` `t`, return the new `total_offset`.  This mirrors the
`if pval is None / elif val-pval>=discont / elif pval-val>=discont`
chain in the source. -/
def unwrapUpdate {α : Type*} [LinearOrderedField α] (discont offset : α)
    (pval : Option α) (val t : α) : α :=
  match pval with
  | none => t
  | some p =>
    if val - p ≥ discont then t - offset
    else if p - val ≥ discont then t + offset
    else t

/-- The body of the `for val in vec` loop of `unwrap_phase`, written as a
recursion over the remaining input, carrying `pval` and `total_offset`.
Each output element is `val + total_offset` where `total_offset` has
already been updated for the current sample's jump, and `pval` is set to
the raw (uncorrected) current value. -/
def unwrapAux {α : Type*} [LinearOrderedField α] (discont offset : α) :
    List α → Option α → α → List α
  | [], _, _ => []
  | val :: rest, pval, t =>
    let t' := unwrapUpdate discont offset pval val t
    (val + t') :: unwrapAux discont offset rest (some val) t'

/-- Function `unwrap_phase (vec, discont, offset)` from the source: scan
`vec` with `total_offset = 0` and `pval = None` initially. -/
def unwrap_phase {α : Type*} [LinearOrderedField α]
    (vec : List α) (discont offset : α) : List α :=
  unwrapAux discont offset vec none 0

/-- State of the reference scan described by the spec: the accumulator
`total_offset` and the raw `previous` sample (`none` while undefined). -/
structure UnwrapState (α : Type*) where
  total_offset : α
  previous : Option α

/-- Modelled from the spec's words (reference algorithm for claim C1):
one step of the reference scan.  The accumulator is decremented by
`offset` when `current - previous ≥ discont`, incremented by `offset`
when `previous - current ≥ discont`; the emitted output is the current
raw value plus the accumulator AFTER processing the current jump, and
`previous` becomes the raw current value. -/
def unwrapSpecStep {α : Type*} [LinearOrderedField α] (discont offset : α)
    (s : UnwrapState α) (v : α) : UnwrapState α × α :=
  let t :=
    match s.previous with
    | none => s.total_offset
    | some p =>
      if v - p ≥ discont then s.total_offset - offset
      else if p - v ≥ discont then s.total_offset + offset
      else s.total_offset
  (⟨t, some v⟩, v + t)

/-- Folding step of the reference algorithm: apply `unwrapSpecStep` to
the running state and append the emitted output sample. -/
def unwrapSpecFoldStep {α : Type*} [LinearOrderedField α]
    (discont offset : α) (acc : UnwrapState α × List α) (v : α) :
    UnwrapState α × List α :=
  let r := unwrapSpecStep discont offset acc.1 v
  (r.1, acc.2 ++ [r.2])

/-- Modelled from the spec's words (reference algorithm for claim C1):
scan the indices in order, with `total_offset` starting at `0` and
`previous` starting undefined, collecting the outputs left to right. -/
def unwrapSpec {α : Type*} [LinearOrderedField α]
    (vec : List α) (discont offset : α) : List α :=
  (vec.foldl (unwrapSpecFoldStep discont offset)
    ((⟨0, none⟩ : UnwrapState α), ([] : List α))).2

/-- Number of net corrections after one accumulator update: the integer
`k` such that the accumulator moves from `k * offset` to
`countUpdate ... * offset`.  Mirrors `unwrapUpdate` with the `± offset`
steps replaced by `± 1`. -/
def countUpdate {α : Type*} [LinearOrderedField α] (discont : α)
    (pval : Option α) (val : α) (k : ℤ) : ℤ :=
  match pval with
  | none => k
  | some p =>
    if val - p ≥ discont then k - 1
    else if p - val ≥ discont then k + 1
    else k

/-- Trace of the net-correction counts along the scan: entry `i` is the
integer multiple of `offset` that the scan adds to sample `i`. -/
def unwrapCounts {α : Type*} [LinearOrderedField α] (discont : α) :
    List α → Option α → ℤ → List ℤ
  | [], _, _ => []
  | val :: rest, pval, k =>
    let k' := countUpdate discont pval val k
    k' :: unwrapCounts discont rest (some val) k'

/-- Elementwise wrapped phase `arctan (h_plus / h_cross)` computed by
`phase_from_polarizations` before unwrapping. -/
noncomputable def wrappedPhase (hp hc : List ℝ) : List ℝ :=
  (hp.zip hc).map fun q => Real.arctan (q.1 / q.2)

/-- Function `phase_from_polarizations` from the source: wrapped phase,
then `unwrap_phase` with `discont = 0.7 * π` and `offset = π`, then
subtraction of the first element (`p += -p[0]`), then elementwise
absolute value (`abs(p)`). -/
noncomputable def phase_from_polarizations (hp hc : List ℝ) : List ℝ :=
  let p := unwrap_phase (wrappedPhase hp hc) (0.7 * Real.pi) Real.pi
  (p.map fun x => x - p.headI).map fun x => |x|

/-- Elementwise squared norm of a real sample sequence, as computed by
the `squared_norm` method of the array collaborator. -/
def squared_norm (v : List ℝ) : List ℝ := v.map fun x => x ^ 2

/-- Function `amplitude_from_polarizations` from the source: the
elementwise sum of the two squared norms, raised elementwise to the
power `0.5`. -/
noncomputable def amplitude_from_polarizations (hp hc : List ℝ) :
    List ℝ :=
  (List.zipWith (fun a b => a + b) (squared_norm hp)
    (squared_norm hc)).map fun x => x ^ (0.5 : ℝ)

/-- The length of the scan's output equals the length of the remaining
input, for any carried state. -/
theorem unwrapAux_length {α : Type*} [LinearOrderedField α]
    (discont offset : α) :
    ∀ (l : List α) (pval : Option α) (t : α),
      (unwrapAux discont offset l pval t).length = l.length
  | [], _, _ => rfl
  | _ :: rest, pval, t => by
    simp [unwrapAux, unwrapAux_length discont offset rest]

/-- `unwrap_phase` preserves length. -/
theorem unwrap_phase_length {α : Type*} [LinearOrderedField α]
    (vec : List α) (discont offset : α) :
    (unwrap_phase vec discont offset).length = vec.length :=
  unwrapAux_length discont offset vec none 0

end PyCBC

open PyCBC

/-- Claim C6: for every input sequence (including the empty one, which
yields the empty output), `unwrap_phase` returns a sequence of exactly
the same length as its input. -/
theorem C6_unwrap_length_preserved (vec : List ℚ) (discont offset : ℚ) :
    (unwrap_phase vec discont offset).length = vec.length ∧
    unwrap_phase ([] : List ℚ) discont offset = [] :=
  ⟨unwrap_phase_length vec discont offset, rfl⟩

/-- Claim C9: `unwrap_phase [0, 1, 2]` with `discont = 0.7` and
`offset = 1` returns exactly `[0, 0, 0]`: the first sample is unadjusted,
and each of the two jumps of size `1 ≥ 0.7` decrements the accumulator
by `1`. -/
theorem C9_concrete_unwrap :
    unwrap_phase ([0, 1, 2] : List ℚ) (7/10) 1 = [0, 0, 0] := by
  norm_num [unwrap_phase, unwrapAux, unwrapUpdate]

/-- Helper for C5: if from some previous raw value `p` onward no
consecutive pair of `p :: l` jumps by `discont` or more in either
direction, the scan adds the carried accumulator `t` to every sample and
never changes it. -/
theorem unwrapAux_no_jump {α : Type*} [LinearOrderedField α]
    (discont offset : α) :
    ∀ (l : List α) (p t : α),
      List.Chain' (fun a b => ¬(b - a ≥ discont) ∧ ¬(a - b ≥ discont))
        (p :: l) →
      unwrapAux discont offset l (some p) t = l.map (· + t)
  | [], _, _, _ => rfl
  | v :: rest, p, t, h => by
    rw [List.chain'_cons] at h
    obtain ⟨⟨h1, h2⟩, h3⟩ := h
    simp only [unwrapAux, unwrapUpdate, if_neg h1, if_neg h2, List.map]
    rw [unwrapAux_no_jump discont offset rest v t h3]

/-- Claim C5: on any input in which no two consecutive samples differ, in
either direction, by an amount at least `discont`, `unwrap_phase` is the
identity. -/
theorem C5_no_jump_identity (S : List ℚ) (discont offset : ℚ)
    (h : List.Chain'
      (fun a b => ¬(b - a ≥ discont) ∧ ¬(a - b ≥ discont)) S) :
    unwrap_phase S discont offset = S := by
  cases S with
  | nil => rfl
  | cons v rest =>
    rw [List.chain'_cons'] at h
    simp only [unwrap_phase, unwrapAux, unwrapUpdate, add_zero]
    rw [unwrapAux_no_jump discont offset rest v 0]
    · simp
    · rw [List.chain'_cons']
      exact ⟨fun b hb => h.1 b hb, h.2⟩

/-- Witness for C5 at the concrete jump-free input `[0, 1/2, 3/10]` with
`discont = 1`. -/
theorem C5_no_jump_identity_witness :
    List.Chain'
      (fun a b => ¬(b - a ≥ (1:ℚ)) ∧ ¬(a - b ≥ (1:ℚ)))
      [0, 1/2, 3/10] ∧
    unwrap_phase ([0, 1/2, 3/10] : List ℚ) 1 5 = [0, 1/2, 3/10] := by
  have hc : List.Chain'
      (fun a b => ¬(b - a ≥ (1:ℚ)) ∧ ¬(a - b ≥ (1:ℚ)))
      [0, 1/2, 3/10] := by
    rw [List.chain'_cons, List.chain'_cons]
    norm_num
  exact ⟨hc, C5_no_jump_identity [0, 1/2, 3/10] 1 5 hc⟩

/-- Claim C7: a jump whose magnitude exactly equals `discont` does
trigger a correction (the comparison is `≥`, not `>`), and for
`discont > 0` the two correction conditions cannot hold at once, so at
most one branch fires per step. -/
theorem C7_threshold_and_exclusivity (discont offset p v t : ℚ)
    (hd : 0 < discont) :
    (v - p = discont →
      unwrapUpdate discont offset (some p) v t = t - offset) ∧
    (p - v = discont →
      unwrapUpdate discont offset (some p) v t = t + offset) ∧
    ¬(v - p ≥ discont ∧ p - v ≥ discont) := by
  refine ⟨fun h => ?_, fun h => ?_, fun ⟨h1, h2⟩ => ?_⟩
  · simp only [unwrapUpdate]
    rw [if_pos (ge_of_eq h)]
  · have hneg : ¬(v - p ≥ discont) := by
      rw [show v - p = -discont by linarith]
      intro hcon
      linarith
    simp only [unwrapUpdate]
    rw [if_neg hneg, if_pos (ge_of_eq h)]
  · linarith

/-- Witness for C7 at `discont = 1`, `offset = 2`, `p = 0`, `v = 1`,
`t = 5`. -/
theorem C7_threshold_and_exclusivity_witness :
    (0:ℚ) < 1 ∧
    (((1:ℚ) - 0 = 1 → unwrapUpdate (1:ℚ) 2 (some 0) 1 5 = 5 - 2) ∧
     ((0:ℚ) - 1 = 1 → unwrapUpdate (1:ℚ) 2 (some 0) 1 5 = 5 + 2) ∧
     ¬((1:ℚ) - 0 ≥ 1 ∧ (0:ℚ) - 1 ≥ 1)) :=
  ⟨by norm_num, C7_threshold_and_exclusivity 1 2 0 1 5 (by norm_num)⟩

/-- Claim C8: a downward jump of magnitude `j ≥ discont` immediately
followed by an upward jump of the same magnitude restores the
accumulator to its prior value: the two corrections cancel exactly.
Stated both on the accumulator update and on a whole scan of
`[p, p - j, p]`, where the last output sample equals the last raw
sample, showing the accumulator returned to its initial value `0`. -/
theorem C8_round_trip_cancellation (discont offset p j t : ℚ)
    (hd : 0 < discont) (hj : discont ≤ j) :
    unwrapUpdate discont offset (some (p - j)) p
      (unwrapUpdate discont offset (some p) (p - j) t) = t ∧
    unwrap_phase [p, p - j, p] discont offset =
      [p, p - j + offset, p] := by
  have h1 : ¬(p - j - p ≥ discont) := by
    intro hcon
    linarith
  have h2 : p - (p - j) ≥ discont := by linarith
  constructor
  · simp only [unwrapUpdate]
    rw [if_neg h1, if_pos h2, if_pos h2]
    ring
  · simp only [unwrap_phase, unwrapAux, unwrapUpdate, if_neg h1,
      if_pos h2]
    norm_num

/-- Witness for C8 at `discont = 1`, `offset = 10`, `p = 7`, `j = 2`,
`t = 4`. -/
theorem C8_round_trip_cancellation_witness :
    ((0:ℚ) < 1 ∧ (1:ℚ) ≤ 2) ∧
    (unwrapUpdate (1:ℚ) 10 (some (7 - 2)) 7
        (unwrapUpdate (1:ℚ) 10 (some 7) (7 - 2) 4) = 4 ∧
      unwrap_phase [7, 7 - 2, 7] (1:ℚ) 10 = [7, 7 - 2 + 10, 7]) :=
  ⟨⟨by norm_num, by norm_num⟩,
    C8_round_trip_cancellation 1 10 7 2 4 (by norm_num) (by norm_num)⟩

/-- Counterexample to C4 as stated: at `discont = 1`, `offset = 1`, the
input `[0, 1, 2]` has two positive jumps, yet the cumulative offset
applied to the last sample (output minus raw input) is `-2`, which is
not positive. -/
theorem C4_counterexample :
    unwrap_phase ([0, 1, 2] : List ℚ) 1 1 = [0, 0, 0] ∧
    ¬(0 < (unwrap_phase ([0, 1, 2] : List ℚ) 1 1).getD 2 0 - 2) := by
  have h : unwrap_phase ([0, 1, 2] : List ℚ) 1 1 = [0, 0, 0] := by
    norm_num [unwrap_phase, unwrapAux, unwrapUpdate]
  refine ⟨h, ?_⟩
  rw [h]
  norm_num

/-- Claim C4, amended: on `S = [0, discont, 2 * discont]` (jumps exactly
at the threshold) each step at or above the threshold triggers exactly
one correction of the accumulator by `-offset`, so the cumulative offset
direction is OPPOSITE to the sign of the jump: two positive jumps leave
a cumulative offset of `-2 * offset`, which is negative for positive
`offset`. -/
theorem C4_monotonic_jump_amended (discont offset : ℚ)
    (hd : 0 < discont) (ho : 0 < offset) :
    unwrap_phase [0, discont, 2 * discont] discont offset =
      [0, discont - offset, 2 * discont - (offset + offset)] ∧
    (discont - offset) - discont = -offset ∧
    (2 * discont - (offset + offset)) - 2 * discont =
      (discont - offset - discont) + -offset ∧
    (2 * discont - (offset + offset)) - 2 * discont < 0 := by
  have h1 : discont - 0 ≥ discont := by linarith
  have h2 : 2 * discont - discont ≥ discont := by linarith
  refine ⟨?_, by ring, by ring, by linarith⟩
  simp only [unwrap_phase, unwrapAux, unwrapUpdate, if_pos h1, if_pos h2]
  norm_num
  constructor
  · ring
  · ring

/-- One step of the reference algorithm computes exactly the
`unwrapUpdate` accumulator of the code's scan, emits the current value
plus that accumulator, and stores the raw current value as previous. -/
theorem unwrapSpecStep_eq {α : Type*} [LinearOrderedField α]
    (discont offset : α) (s : UnwrapState α) (v : α) :
    unwrapSpecStep discont offset s v =
      (⟨unwrapUpdate discont offset s.previous v s.total_offset, some v⟩,
        v + unwrapUpdate discont offset s.previous v s.total_offset) := by
  rcases s with ⟨t, _ | p⟩ <;> rfl

/-- The reference fold from an arbitrary state produces the already
collected output followed by the code's scan from the same state. -/
theorem unwrapSpec_foldl {α : Type*} [LinearOrderedField α]
    (discont offset : α) :
    ∀ (l : List α) (s : UnwrapState α) (out : List α),
      (l.foldl (unwrapSpecFoldStep discont offset) (s, out)).2 =
        out ++ unwrapAux discont offset l s.previous s.total_offset
  | [], s, out => by simp [unwrapAux]
  | v :: rest, s, out => by
    have hstep : unwrapSpecFoldStep discont offset (s, out) v =
        (⟨unwrapUpdate discont offset s.previous v s.total_offset,
            some v⟩,
          out ++
            [v + unwrapUpdate discont offset s.previous v
              s.total_offset]) := by
      simp [unwrapSpecFoldStep, unwrapSpecStep_eq]
    rw [List.foldl_cons, hstep, unwrapSpec_foldl discont offset rest]
    simp [unwrapAux]

/-- Claim C1: for every input sequence, every positive discontinuity and
every offset, `unwrap_phase` computes exactly the reference single-pass
algorithm described by the spec. -/
theorem C1_unwrap_matches_reference (vec : List ℚ)
    (discont offset : ℚ) (hd : 0 < discont) :
    unwrap_phase vec discont offset = unwrapSpec vec discont offset := by
  rw [unwrapSpec, unwrapSpec_foldl]
  simp [unwrap_phase]

/-- Witness for C1 at the concrete input `[0, 1, 2]`, `discont = 7/10`,
`offset = 1`. -/
theorem C1_unwrap_matches_reference_witness :
    (0:ℚ) < 7/10 ∧
    unwrap_phase ([0, 1, 2] : List ℚ) (7/10) 1 =
      unwrapSpec ([0, 1, 2] : List ℚ) (7/10) 1 :=
  ⟨by norm_num,
    C1_unwrap_matches_reference [0, 1, 2] (7/10) 1 (by norm_num)⟩

/-- Updating an accumulator that is an integer multiple of `offset`
yields the corresponding updated multiple of `offset`. -/
theorem unwrapUpdate_counts {α : Type*} [LinearOrderedField α]
    (discont offset : α) (pval : Option α) (v : α) (k : ℤ) :
    unwrapUpdate discont offset pval v ((k : α) * offset) =
      ((countUpdate discont pval v k : ℤ) : α) * offset := by
  cases pval with
  | none => rfl
  | some p =>
    simp only [unwrapUpdate, countUpdate]
    split_ifs <;> push_cast <;> ring

/-- Each output of the scan is the raw input plus the traced count times
`offset`, whenever the carried accumulator is `k * offset`. -/
theorem unwrapAux_getD_counts {α : Type*} [LinearOrderedField α]
    (discont offset : α) :
    ∀ (l : List α) (pval : Option α) (k : ℤ) (i : ℕ), i < l.length →
      (unwrapAux discont offset l pval ((k : α) * offset)).getD i 0 =
        l.getD i 0 +
          ((unwrapCounts discont l pval k).getD i 0 : α) * offset
  | [], _, _, _, h => absurd h (by simp)
  | v :: rest, pval, k, 0, _ => by
    simp only [unwrapAux, unwrapCounts, unwrapUpdate_counts,
      List.getD_cons_zero]
  | v :: rest, pval, k, i + 1, h => by
    simp only [unwrapAux, unwrapCounts, unwrapUpdate_counts,
      List.getD_cons_succ]
    exact unwrapAux_getD_counts discont offset rest (some v)
      (countUpdate discont pval v k) i (by simpa using h)

/-- A single count update moves the count by at most one. -/
theorem countUpdate_abs {α : Type*} [LinearOrderedField α]
    (discont : α) (pval : Option α) (v : α) (k : ℤ) :
    |countUpdate discont pval v k - k| ≤ 1 := by
  cases pval with
  | none => simp [countUpdate]
  | some p =>
    simp only [countUpdate]
    split_ifs
    · rw [show k - 1 - k = (-1 : ℤ) by ring]
      norm_num
    · rw [show k + 1 - k = (1 : ℤ) by ring]
      norm_num
    · simp

/-- Consecutive traced counts differ by at most one. -/
theorem unwrapCounts_chain {α : Type*} [LinearOrderedField α]
    (discont : α) :
    ∀ (l : List α) (pval : Option α) (k : ℤ) (i : ℕ),
      i + 1 < l.length →
      |(unwrapCounts discont l pval k).getD (i + 1) 0 -
        (unwrapCounts discont l pval k).getD i 0| ≤ 1
  | [], _, _, _, h => absurd h (by simp)
  | v :: rest, pval, k, 0, h => by
    match rest, h with
    | w :: rrest, _ =>
      simp only [unwrapCounts, List.getD_cons_succ, List.getD_cons_zero]
      exact countUpdate_abs discont (some v) w (countUpdate discont pval v k)
  | v :: rest, pval, k, i + 1, h => by
    simp only [unwrapCounts, List.getD_cons_succ]
    exact unwrapCounts_chain discont rest (some v)
      (countUpdate discont pval v k) i (by simpa using h)

/-- The first traced count of a whole scan is `0`: the first sample is
never corrected. -/
theorem unwrapCounts_first {α : Type*} [LinearOrderedField α]
    (discont : α) (l : List α) :
    (unwrapCounts discont l none 0).getD 0 0 = 0 := by
  cases l with
  | nil => rfl
  | cons v rest => simp [unwrapCounts, countUpdate]

/-- Claim C10: every output sample differs from the corresponding raw
input sample by an integer multiple `k i` of `offset`, with `k 0 = 0`
(the first sample is unadjusted) and consecutive multipliers changing by
at most one per sample. -/
theorem C10_offset_multiples (S : List ℚ) (discont offset : ℚ) :
    ∃ k : ℕ → ℤ, k 0 = 0 ∧
      (∀ i, i < S.length →
        (unwrap_phase S discont offset).getD i 0 - S.getD i 0 =
          (k i : ℚ) * offset) ∧
      (∀ i, i + 1 < S.length → |k (i + 1) - k i| ≤ 1) := by
  refine ⟨fun i => (unwrapCounts discont S none 0).getD i 0,
    unwrapCounts_first discont S, fun i hi => ?_,
    fun i hi => unwrapCounts_chain discont S none 0 i hi⟩
  have h := unwrapAux_getD_counts discont offset S none 0 i hi
  rw [show (((0:ℤ) : ℚ)) * offset = 0 by simp] at h
  rw [unwrap_phase, h]
  ring

/-- Witness for the amended C4 at `discont = 1`, `offset = 1`. -/
theorem C4_monotonic_jump_amended_witness :
    ((0:ℚ) < 1 ∧ (0:ℚ) < 1) ∧
    (unwrap_phase [0, 1, 2 * 1] (1:ℚ) 1 =
        [0, 1 - 1, 2 * 1 - (1 + 1)] ∧
      ((1:ℚ) - 1) - 1 = -1 ∧
      (2 * 1 - (1 + 1)) - 2 * 1 = ((1:ℚ) - 1 - 1) + -1 ∧
      (2 * (1:ℚ) - (1 + 1)) - 2 * 1 < 0) :=
  ⟨⟨by norm_num, by norm_num⟩,
    C4_monotonic_jump_amended 1 1 (by norm_num) (by norm_num)⟩

/-- Claim C2: for every pair of non-empty, equal-length polarization
sequences, the phase returned by `phase_from_polarizations` has the same
length, its first sample is exactly `0`, and every sample is
non-negative. -/
theorem C2_phase_first_zero_all_nonneg (hp hc : List ℝ)
    (hne : hp ≠ []) (hlen : hp.length = hc.length) :
    (phase_from_polarizations hp hc).length = hp.length ∧
    (phase_from_polarizations hp hc).headI = 0 ∧
    ∀ x ∈ phase_from_polarizations hp hc, 0 ≤ x := by
  have hwlen : (wrappedPhase hp hc).length = hp.length := by
    simp [wrappedPhase, hlen]
  have hplen :
      (unwrap_phase (wrappedPhase hp hc)
        (0.7 * Real.pi) Real.pi).length = hp.length := by
    rw [unwrap_phase_length, hwlen]
  have hpne :
      unwrap_phase (wrappedPhase hp hc) (0.7 * Real.pi) Real.pi ≠ [] := by
    intro hcon
    apply hne
    rw [← List.length_eq_zero, ← hplen, hcon]
    rfl
  obtain ⟨a, rest, hcons⟩ := List.exists_cons_of_ne_nil hpne
  refine ⟨?_, ?_, ?_⟩
  · simp [phase_from_polarizations, hplen]
  · simp [phase_from_polarizations, hcons]
  · intro x hx
    simp only [phase_from_polarizations, List.mem_map] at hx
    obtain ⟨y, ⟨z, _, rfl⟩, rfl⟩ := hx
    exact abs_nonneg _

/-- Witness for C2 at the concrete input `h_plus = [1]`,
`h_cross = [1]`. -/
theorem C2_phase_first_zero_all_nonneg_witness :
    (([(1:ℝ)] : List ℝ) ≠ [] ∧
      ([(1:ℝ)] : List ℝ).length = ([(1:ℝ)] : List ℝ).length) ∧
    ((phase_from_polarizations [1] [1]).length =
        ([(1:ℝ)] : List ℝ).length ∧
      (phase_from_polarizations [1] [1]).headI = 0 ∧
      ∀ x ∈ phase_from_polarizations [1] [1], 0 ≤ x) :=
  ⟨⟨List.cons_ne_nil 1 [], rfl⟩,
    C2_phase_first_zero_all_nonneg [1] [1] (List.cons_ne_nil 1 []) rfl⟩

/-- Claim C3: for equal-length inputs, `amplitude_from_polarizations`
returns, at every index `i`, the Euclidean norm
`sqrt (h_plus[i]^2 + h_cross[i]^2)`; in particular on `[3]` and `[4]`
the result is `[5]`. -/
theorem C3_amplitude_pointwise (hp hc : List ℝ)
    (hlen : hp.length = hc.length) :
    (∀ i, i < hp.length →
      (amplitude_from_polarizations hp hc).getD i 0 =
        Real.sqrt ((hp.getD i 0) ^ 2 + (hc.getD i 0) ^ 2)) ∧
    amplitude_from_polarizations [3] [4] = [5] := by
  have hhalf : (0.5 : ℝ) = 1 / 2 := by norm_num
  constructor
  · intro i hi
    have hi' : i < (List.zipWith (fun a b => a + b) (squared_norm hp)
        (squared_norm hc)).length := by
      simp [squared_norm, hlen]
      omega
    have hip : i < hp.length := hi
    have hic : i < hc.length := hlen ▸ hi
    have hgd : (amplitude_from_polarizations hp hc).getD i 0 =
        ((hp.getD i 0) ^ 2 + (hc.getD i 0) ^ 2) ^ (0.5 : ℝ) := by
      rw [amplitude_from_polarizations,
        List.getD_eq_getElem _ _ (by simpa using hi'),
        List.getElem_map, List.getElem_zipWith,
        List.getD_eq_getElem _ _ hip, List.getD_eq_getElem _ _ hic]
      simp [squared_norm]
    rw [hgd, hhalf, ← Real.sqrt_eq_rpow]
  · have h25 : ((3:ℝ) ^ 2 + (4:ℝ) ^ 2) = 5 ^ 2 := by norm_num
    simp only [amplitude_from_polarizations, squared_norm, List.map,
      List.zipWith, hhalf]
    rw [← Real.sqrt_eq_rpow, h25, Real.sqrt_sq (by norm_num)]

/-- Witness for C6 at the concrete input `[0, 1, 2]`, `discont = 7/10`,
`offset = 5`, including the empty-input case. -/
theorem C6_unwrap_length_preserved_witness :
    (unwrap_phase ([0, 1, 2] : List ℚ) (7/10) 5).length =
      ([0, 1, 2] : List ℚ).length ∧
    unwrap_phase ([] : List ℚ) (7/10) 5 = [] :=
  C6_unwrap_length_preserved [0, 1, 2] (7/10) 5

/-- Witness for C10 at the concrete input `[0, 1, 2]`,
`discont = 7/10`, `offset = 1`. -/
theorem C10_offset_multiples_witness :
    ∃ k : ℕ → ℤ, k 0 = 0 ∧
      (∀ i, i < ([0, 1, 2] : List ℚ).length →
        (unwrap_phase ([0, 1, 2] : List ℚ) (7/10) 1).getD i 0 -
          ([0, 1, 2] : List ℚ).getD i 0 = (k i : ℚ) * 1) ∧
      (∀ i, i + 1 < ([0, 1, 2] : List ℚ).length →
        |k (i + 1) - k i| ≤ 1) :=
  C10_offset_multiples [0, 1, 2] (7/10) 1

/-- Witness for C3 at the concrete input `h_plus = [3]`,
`h_cross = [4]`. -/
theorem C3_amplitude_pointwise_witness :
    (([(3:ℝ)] : List ℝ).length = ([(4:ℝ)] : List ℝ).length) ∧
    ((∀ i, i < ([(3:ℝ)] : List ℝ).length →
      (amplitude_from_polarizations [3] [4]).getD i 0 =
        Real.sqrt ((([(3:ℝ)] : List ℝ).getD i 0) ^ 2 +
          (([(4:ℝ)] : List ℝ).getD i 0) ^ 2)) ∧
    amplitude_from_polarizations [3] [4] = [5]) :=
  ⟨rfl, C3_amplitude_pointwise [3] [4] rfl⟩
